import Mathlib

/-!
# Verification of the FIRMCP belief-tree planner core and Controller step

Shallow embedding of the POMCP-over-FIRM planner (`src/Planner/FIRMCP.cpp`)
and the LQG-style controller step (`include/Controllers/Controller.h`).

Machine doubles are modelled as exact rationals (`ℚ`); the transcendental
library functions `sqrt`, `log`, `pow` that only feed into comparisons are
taken as abstract parameters, since every claim below depends only on the
comparison structure of the computed scores, never on their numeric values.

Vertices of the belief graph are natural-number ids, as in the Boost graph.
-/

namespace FIRMCP

/-- POMCP statistics stored on a belief vertex (the `FIRM::StateType` meta
fields read and written by `pomcpSimulate` / `pomcpRollout`):
`N(h)`, `J(h)`, the child-action list, and per-action `N(h,q)`, `M(h,q)`,
`Q(h,q)`. -/
structure QVstats where
  thisQVvisit : ℚ
  thisQVmincosttogo : ℚ
  childQnodes : List ℕ
  childQvisit : ℕ → ℚ
  childQmiss : ℕ → ℚ
  childQcosttogo : ℕ → ℚ

/-- The backup block of `FIRMCP::pomcpSimulate` (FIRMCP.cpp lines 1256-1376):
after the recursive call it increments `N(h)` and `N(h,q)`, increments
`M(h,q)` on failure, forms `Q_k(h,q) = cStep + (J_child if ok else J_obs)`,
resets the stored `Q(h,q)` to 0 when `isNewNodeExpanded`, applies the
running-mean update dividing by the incremented `N(h,q)`, and updates
`J(h)`: if the updated `Q` is below the old `J` it becomes the new `J`,
otherwise `J` is the minimum of the updated `Q` and the STORED (pre-write)
`Q(h,q)` values of all child actions; only then is the updated `Q(h,q)`
written back.  Returns the updated stats and the returned cost-to-go. -/
def backupSimulate (s : QVstats) (qsel : ℕ) (executionCost : ℚ)
    (executionStatus : Bool) (childJ : ℚ) (isNewNodeExpanded : Bool)
    (obstacleCostToGo : ℚ) : QVstats × ℚ :=
  let thisQVvisit := s.thisQVvisit + 1
  let childQvisit := Function.update s.childQvisit qsel (s.childQvisit qsel + 1)
  let childQmiss :=
    if executionStatus then s.childQmiss
    else Function.update s.childQmiss qsel (s.childQmiss qsel + 1)
  let selectedChildQvisit := childQvisit qsel
  let selectedChildQcosttogo0 := s.childQcosttogo qsel
  let qk := executionCost + (if executionStatus then childJ else obstacleCostToGo)
  let selectedChildQcosttogo := if isNewNodeExpanded then 0 else selectedChildQcosttogo0
  let selectedChildQcosttogoUpdated :=
    selectedChildQcosttogo + (qk - selectedChildQcosttogo) / selectedChildQvisit
  let thisQVmincosttogo := s.thisQVmincosttogo
  let thisQVmincosttogoUpdated :=
    if selectedChildQcosttogoUpdated < thisQVmincosttogo then
      selectedChildQcosttogoUpdated
    else
      s.childQnodes.foldl
        (fun acc c => if acc > s.childQcosttogo c then s.childQcosttogo c else acc)
        selectedChildQcosttogoUpdated
  let childQcosttogo := Function.update s.childQcosttogo qsel selectedChildQcosttogoUpdated
  ({ thisQVvisit := thisQVvisit
     thisQVmincosttogo := thisQVmincosttogoUpdated
     childQnodes := s.childQnodes
     childQvisit := childQvisit
     childQmiss := childQmiss
     childQcosttogo := childQcosttogo }, thisQVmincosttogoUpdated)

/-- The backup block of `FIRMCP::pomcpRollout` (FIRMCP.cpp lines 1819-1942),
embedded separately from its own source text; it is compared with the
`pomcpSimulate` block in claim C2. -/
def backupRollout (s : QVstats) (qsel : ℕ) (executionCost : ℚ)
    (executionStatus : Bool) (childJ : ℚ) (isNewNodeExpanded : Bool)
    (obstacleCostToGo : ℚ) : QVstats × ℚ :=
  let thisQVvisit := s.thisQVvisit + 1
  let childQvisit := Function.update s.childQvisit qsel (s.childQvisit qsel + 1)
  let childQmiss :=
    if executionStatus then s.childQmiss
    else Function.update s.childQmiss qsel (s.childQmiss qsel + 1)
  let selectedChildQvisit := childQvisit qsel
  let selectedChildQcosttogo0 := s.childQcosttogo qsel
  let qk := executionCost + (if executionStatus then childJ else obstacleCostToGo)
  let selectedChildQcosttogo := if isNewNodeExpanded then 0 else selectedChildQcosttogo0
  let selectedChildQcosttogoUpdated :=
    selectedChildQcosttogo + (qk - selectedChildQcosttogo) / selectedChildQvisit
  let thisQVmincosttogo := s.thisQVmincosttogo
  let thisQVmincosttogoUpdated :=
    if selectedChildQcosttogoUpdated < thisQVmincosttogo then
      selectedChildQcosttogoUpdated
    else
      s.childQnodes.foldl
        (fun acc c => if acc > s.childQcosttogo c then s.childQcosttogo c else acc)
        selectedChildQcosttogoUpdated
  let childQcosttogo := Function.update s.childQcosttogo qsel selectedChildQcosttogoUpdated
  ({ thisQVvisit := thisQVvisit
     thisQVmincosttogo := thisQVmincosttogoUpdated
     childQnodes := s.childQnodes
     childQvisit := childQvisit
     childQmiss := childQmiss
     childQcosttogo := childQcosttogo }, thisQVmincosttogoUpdated)

/-- The horizon/terminal backups of `pomcpSimulate` and `pomcpRollout`
(FIRMCP.cpp lines 985-991, 1009-1013, 1026-1032, 1412-1418, 1445-1451,
1471-1475, 1488-1494, 1538-1544): `N(h) += 1` and `J(h)` is SET to the
backed-up value (`obstacleCostToGo_` or the approximate cost-to-go),
leaving the child `Q` table untouched. -/
def backupAtHorizon (s : QVstats) (value : ℚ) : QVstats × ℚ :=
  ({ s with thisQVvisit := s.thisQVvisit + 1, thisQVmincosttogo := value }, value)

/-- `J` is exactly the minimum of `qmap` over the child-action list:
a lower bound that is attained. -/
def IsMinOver (j : ℚ) (qmap : ℕ → ℚ) (children : List ℕ) : Prop :=
  (∀ c ∈ children, j ≤ qmap c) ∧ (∃ c ∈ children, j = qmap c)

instance (j : ℚ) (qmap : ℕ → ℚ) (children : List ℕ) :
    Decidable (IsMinOver j qmap children) := by
  unfold IsMinOver
  infer_instance

/-- The greedy argmin scan shared by the UCB action selection of
`pomcpSimulate` (FIRMCP.cpp lines 1053-1096) and the final action selection
of `generatePOMCPPolicy` (lines 855-891): starting from
`minQcosttogo = infiniteCostToGo_` and an empty tie list, each child whose
score is `≤` the running minimum lowers the minimum and is appended to the
tie list, which is cleared first when the score is strictly smaller.
Returns the final minimum and the tie list. -/
def argminScan (score : ℕ → ℚ) (inf0 : ℚ) (children : List ℕ) : ℚ × List ℕ :=
  children.foldl
    (fun acc c =>
      if acc.1 ≥ score c then (score c, (if acc.1 > score c then [] else acc.2) ++ [c])
      else acc)
    (inf0, [])

/-- The running minimum maintained by `argminScan`. -/
def minScanVal (score : ℕ → ℚ) (inf0 : ℚ) (children : List ℕ) : ℚ :=
  children.foldl (fun m c => if m ≥ score c then score c else m) inf0

/-- Tie breaking by `rand() % size` (lines 881-891); when the tie list is a
singleton the code takes its only element, which coincides with index
`r % 1 = 0`. -/
def selectFromTies (lst : List ℕ) (r : ℕ) : ℕ :=
  lst.getD (r % lst.length) 0

/-- The constant `1e-10` added to `N(h,q)` in the UCB denominator
(FIRMCP.cpp line 1070). -/
def ucbEps : ℚ := 1 / 10 ^ 10

/-- The greedy-UCB score of a child action computed by `pomcpSimulate`
(line 1070): `Q(h,q) - cExplorationForSimulate_ *
sqrt(log(N(h)+1.0) / (N(h,q)+1e-10))`.  The C library `sqrt` and `log` are
abstracted as `rsqrt` and `rlog`; the claims depend only on comparisons of
the resulting scores. -/
def ucbScore (rsqrt rlog : ℚ → ℚ) (cExplorationForSimulate : ℚ)
    (thisQVvisit childQcosttogo childQvisit : ℚ) : ℚ :=
  childQcosttogo -
    cExplorationForSimulate * rsqrt (rlog (thisQVvisit + 1) / (childQvisit + ucbEps))

/-- The action-selection block of `pomcpSimulate` for an already-expanded
vertex at depth `< maxPOMCPDepth_` (FIRMCP.cpp lines 1051-1104): a greedy
scan for the child minimising the UCB score starting from
`infiniteCostToGo_`, with ties broken by `rand()`. -/
def pomcpSelectAction (rsqrt rlog : ℚ → ℚ)
    (cExplorationForSimulate infiniteCostToGo : ℚ) (s : QVstats) (r : ℕ) : ℕ :=
  selectFromTies
    (argminScan
      (fun c => ucbScore rsqrt rlog cExplorationForSimulate s.thisQVvisit
        (s.childQcosttogo c) (s.childQvisit c))
      infiniteCostToGo s.childQnodes).2 r

/-- `generatePOMCPPolicy` (FIRMCP.cpp lines 785-918): run one Monte Carlo
simulation per particle (each may mutate the per-vertex statistics), then
return the edge from the root to the child action with the minimum stored
`Q(root,q)`, ties broken by `rand()`.  The per-particle simulation is
abstracted as a state transformer on the statistics map: claim C8
quantifies over it because with zero particles it is never invoked. -/
def generatePOMCPPolicy (simulateParticle : (ℕ → QVstats) → (ℕ → QVstats))
    (numPOMCPParticles : ℕ) (infiniteCostToGo : ℚ) (stats : ℕ → QVstats)
    (currentVertex : ℕ) (r : ℕ) : ((ℕ → QVstats) × (ℕ × ℕ)) :=
  let statsAfter := simulateParticle^[numPOMCPParticles] stats
  (statsAfter,
   (currentVertex,
    selectFromTies
      (argminScan (fun c => (statsAfter currentVertex).childQcosttogo c)
        infiniteCostToGo (statsAfter currentVertex).childQnodes).2 r))

/-- A concrete expanded vertex: one child action `0` with `Q(h,0) = 5`,
`N(h) = N(h,0) = 1`, and a consistent `J(h) = 5 = min_q Q(h,q)`. -/
def exStats : QVstats :=
  { thisQVvisit := 1
    thisQVmincosttogo := 5
    childQnodes := [0]
    childQvisit := fun _ => 1
    childQmiss := fun _ => 0
    childQcosttogo := fun _ => 5 }

/-- A concrete expanded vertex with two child actions `1` and `2` of stored
cost-to-go `3` and `4`. -/
def exStatsTwo : QVstats :=
  { thisQVvisit := 2
    thisQVmincosttogo := 3
    childQnodes := [1, 2]
    childQvisit := fun _ => 1
    childQmiss := fun _ => 0
    childQcosttogo := fun c => if c = 1 then 3 else 4 }

/-- The `isReachedWithinNEps` flag computed by `pomcpRollout` before the
weight loop (FIRMCP.cpp lines 1576-1581): the for-loop body unconditionally
executes `break`, so only the FIRST child in the child-action list is ever
tested (the flag stays `false` for an empty list). -/
def rolloutWithinReach (reached : ℕ → Bool) (children : List ℕ) : Bool :=
  match children with
  | [] => false
  | c :: _ => reached c

/-- The per-child importance weight of `pomcpRollout` (lines 1597-1617):
`1 / (pow(Q, cExploitationForRolloutWithinReach_) + costToGoRegulatorWithinReach_)`
when the within-reach flag is set, and the out-of-reach constants otherwise.
`rpow` abstracts the C library `pow`. -/
def rolloutWeight (rpow : ℚ → ℚ → ℚ) (cWithin regWithin cOut regOut : ℚ)
    (within : Bool) (costtogo : ℚ) : ℚ :=
  if within then 1 / (rpow costtogo cWithin + regWithin)
  else 1 / (rpow costtogo cOut + regOut)

/-- The list of weights the rollout weight loop computes, one per child,
all using the single flag computed once before the loop. -/
def rolloutWeights (rpow : ℚ → ℚ → ℚ) (cWithin regWithin cOut regOut : ℚ)
    (reached : ℕ → Bool) (costtogo : ℕ → ℚ) (children : List ℕ) : List ℚ :=
  children.map (fun c => rolloutWeight rpow cWithin regWithin cOut regOut
    (rolloutWithinReach reached children) (costtogo c))

/-- Weights as the specification sentence of claim C6 states them: the
within-reach formula is used exactly when the belief is reached-within-NEps
of ANY of the vertex's neighbor FIRM nodes. -/
def rolloutWeightsSpec (rpow : ℚ → ℚ → ℚ) (cWithin regWithin cOut regOut : ℚ)
    (reached : ℕ → Bool) (costtogo : ℕ → ℚ) (children : List ℕ) : List ℚ :=
  children.map (fun c => rolloutWeight rpow cWithin regWithin cOut regOut
    (children.any reached) (costtogo c))

/-- The weight-section accumulation of `pomcpRollout` (lines 1571-1622):
fold over the children accumulating `weightSum` and pushing the running
total after each child; the first component is the final `weightSum`, the
second the un-normalised `weightSections`. -/
def rolloutSections (rpow : ℚ → ℚ → ℚ) (cWithin regWithin cOut regOut : ℚ)
    (reached : ℕ → Bool) (costtogo : ℕ → ℚ) (children : List ℕ) : ℚ × List ℚ :=
  children.foldl
    (fun (acc : ℚ × List ℚ) c =>
      let w := rolloutWeight rpow cWithin regWithin cOut regOut
        (rolloutWithinReach reached children) (costtogo c)
      (acc.1 + w, acc.2 ++ [acc.1 + w]))
    (0, [])

/-- The section-lookup loop of `pomcpRollout` (lines 1643-1651): return the
first index whose (normalised) accumulated weight exceeds the random draw
`u`; `none` when no section matches (in C++ `jSelected` would then be read
uninitialised). -/
def selectSection (u : ℚ) : List ℚ → Option ℕ
  | [] => none
  | w :: ws => if u < w then some 0 else (selectSection u ws).map (fun j => j + 1)

/-- The full rollout action sampling (lines 1566-1663): compute the flag
and the weight sections, normalise by `weightSum`, pick the first section
exceeding the draw, and return that child. -/
def rolloutSelectAction (rpow : ℚ → ℚ → ℚ) (cWithin regWithin cOut regOut : ℚ)
    (reached : ℕ → Bool) (costtogo : ℕ → ℚ) (children : List ℕ) (u : ℚ) :
    Option ℕ :=
  let acc := rolloutSections rpow cWithin regWithin cOut regOut reached costtogo children
  let sections := acc.2.map (fun w => w / acc.1)
  (selectSection u sections).map (fun j => children.getD j 0)

/-- Per-vertex destruction flags tracked for `prunePOMCPNode`
(FIRMCP.cpp lines 2601-2626): whether the vertex's belief state was freed,
whether its outgoing edge controllers were freed and erased, and whether
`boost::clear_vertex` was applied to it. -/
structure VertexState where
  beliefFreed : Bool
  controllersFreed : Bool
  edgesCleared : Bool
deriving DecidableEq

/-- `FIRMCP::prunePOMCPNode` (lines 2601-2626): unless the vertex is the
roadmap start vertex `startM_[0]`, free its outgoing edge controllers, free
its belief state and clear its edges; the start vertex is left untouched. -/
def prunePOMCPNode (start : ℕ) (g : ℕ → VertexState) (v : ℕ) : ℕ → VertexState :=
  if v = start then g
  else Function.update g v ⟨true, true, true⟩

/-- The POMCP tree reachable through the `childQVnode` pointers: a vertex id
together with its observation children (only the pointers different from
`INVALID_VERTEX_ID` are descended into). -/
inductive PTree where
  | node : ℕ → List PTree → PTree

mutual

/-- `FIRMCP::prunePOMCPTreeFrom` (lines 2573-2599): recursively prune the
child subtrees (post-order), then prune this vertex. -/
def prunePOMCPTreeFrom (start : ℕ) : PTree → (ℕ → VertexState) → (ℕ → VertexState)
  | PTree.node v children, g => prunePOMCPNode start (pruneChildren start children g) v

/-- The recursion of `prunePOMCPTreeFrom` over the `childQVnode` children. -/
def pruneChildren (start : ℕ) : List PTree → (ℕ → VertexState) → (ℕ → VertexState)
  | [], g => g
  | t :: ts, g => pruneChildren start ts (prunePOMCPTreeFrom start t g)

end

mutual

/-- All vertex ids in a POMCP tree. -/
def treeVerts : PTree → List ℕ
  | PTree.node v children => v :: forestVerts children

/-- All vertex ids in a list of POMCP trees. -/
def forestVerts : List PTree → List ℕ
  | [] => []
  | t :: ts => treeVerts t ++ forestVerts ts

end

end FIRMCP

namespace Controller

/-- The collaborators of one `Controller<SeparatedControllerType, FilterType>`
instance (Controller.h), abstracted over the belief type `B`:
`isTerminated` is the planar goal-distance test (lines 572-589); `evolve`
is `Evolve` as a map from the current belief and time index to the next
belief (lines 478-518; the control, observation and filter call are folded
into it); `checkTrueStateValidity` is `si_->checkTrueStateValidity()`
evaluated after the step; `deviationExceeded` is the test
`|nominalX_K(0:1) - x(0:1)| > nominalTrajDeviationThreshold_`; `traceCov`
is `arma::trace` of the belief covariance. -/
structure CtrlEnv (B : Type) where
  isTerminated : B → ℕ → Bool
  evolve : B → ℕ → B
  checkTrueStateValidity : B → ℕ → Bool
  deviationExceeded : B → ℕ → Bool
  traceCov : B → ℚ

/-- `maxExecTime_ = ceil(nominalXs.size()*3)` set in the constructor
(Controller.h line 230); exact since `3L` is an integer. -/
def maxExecTime (l : ℕ) : ℕ := 3 * l

/-- Result of `executeOneStep`: the returned flag, the end state written to
the out-parameter, the value of the `filteringCost` out-parameter after the
call (the caller's value when the step fails before setting it), and the
number of `checkTrueStateValidity` invocations performed. -/
structure StepResult (B : Type) where
  ok : Bool
  endState : B
  filteringCost : ℚ
  validityChecks : ℕ

/-- `Controller::executeOneStep` (Controller.h lines 372-430): evolve once;
in construction mode check true-state validity and fail on invalid; then
test `deviation > threshold || !checkTrueStateValidity()` (note the
unconditional, short-circuited second validity check) and fail if it holds;
otherwise set `filteringCost := 0.001 + trace(covariance(endState))` and
succeed. -/
def executeOneStep {B : Type} (env : CtrlEnv B) (constructionMode : Bool)
    (k : ℕ) (startState : B) (filteringCostIn : ℚ) : StepResult B :=
  let endState := env.evolve startState k
  if constructionMode && !(env.checkTrueStateValidity endState k) then
    { ok := false, endState := endState, filteringCost := filteringCostIn
      validityChecks := 1 }
  else if env.deviationExceeded endState k then
    { ok := false, endState := endState, filteringCost := filteringCostIn
      validityChecks := if constructionMode then 1 else 0 }
  else if !(env.checkTrueStateValidity endState k) then
    { ok := false, endState := endState, filteringCost := filteringCostIn
      validityChecks := (if constructionMode then 1 else 0) + 1 }
  else
    { ok := true, endState := endState
      filteringCost := 1/1000 + env.traceCov endState
      validityChecks := (if constructionMode then 1 else 0) + 1 }

/-- The loop of `Controller::executeUpto` (lines 433-476): run
`executeOneStep` for `k = 0, 1, ...` while steps remain, threading the
`filteringCost` and `endState` out-parameters (each successful step
overwrites them); on a failed step return `false` with the failed step's
end state and the cost value left by the last successful step. -/
def executeUptoAux {B : Type} (env : CtrlEnv B) (constructionMode : Bool) :
    ℕ → ℕ → B → B → ℚ → Bool × B × ℚ
  | 0, _, _, endStateIn, costIn => (true, endStateIn, costIn)
  | n + 1, k, tempState, _, costIn =>
    let r := executeOneStep env constructionMode k tempState costIn
    if r.ok then
      executeUptoAux env constructionMode n (k + 1) r.endState r.endState r.filteringCost
    else (false, r.endState, r.filteringCost)

/-- `Controller::executeUpto(numSteps, startState, ...)` with the caller's
current values of the `endState` and `filteringCost` out-parameters. -/
def executeUpto {B : Type} (env : CtrlEnv B) (constructionMode : Bool)
    (numSteps : ℕ) (startState endStateIn : B) (costIn : ℚ) : Bool × B × ℚ :=
  executeUptoAux env constructionMode numSteps 0 startState endStateIn costIn

/-- The nominal belief after `t` successful steps starting from `b` with
first time index `k`: `Evolve` applied along `k, k+1, ...`. -/
def beliefSeq {B : Type} (env : CtrlEnv B) (k : ℕ) (b : B) : ℕ → B
  | 0 => b
  | t + 1 => env.evolve (beliefSeq env k b t) (k + t)

/-- Outcome of `Controller::Execute`: the function returned `true` with the
end state, filtering cost and `timeToStop = k` (lines 342-367); it returned
`false` (collision or deviation, lines 293-298 and 310-315); or the while
loop is still running after the given number of iterations (the fuel).
There is NO `maxExecTime_` bound in the loop. -/
inductive ExecOutcome (B : Type) where
  | done : B → ℚ → ℕ → ExecOutcome B
  | failed : B → ExecOutcome B
  | running : ℕ → ExecOutcome B
deriving DecidableEq

/-- Instrumented trace of `Controller::Execute`: outcome plus the number of
`Evolve` calls and of `checkTrueStateValidity` calls performed. -/
structure ExecTrace (B : Type) where
  outcome : ExecOutcome B
  evolveCalls : ℕ
  validityChecks : ℕ

/-- The while loop of `Controller::Execute` (lines 249-327), fuelled: while
`!isTerminated(tempEndState, k)`, call `Evolve`; in construction mode check
validity and fail on invalid; then test
`deviation > threshold || !checkTrueStateValidity()` (short-circuit) and
fail if it holds; else `k++`, `cost += trace(covariance)` and continue. -/
def ExecuteAux {B : Type} (env : CtrlEnv B) (constructionMode : Bool) :
    ℕ → B → ℕ → ℚ → ℕ → ℕ → ExecTrace B
  | 0, _, k, _, evolves, checks => ⟨ExecOutcome.running k, evolves, checks⟩
  | fuel + 1, b, k, cost, evolves, checks =>
    if env.isTerminated b k then ⟨ExecOutcome.done b cost k, evolves, checks⟩
    else
      let b2 := env.evolve b k
      if constructionMode && !(env.checkTrueStateValidity b2 k) then
        ⟨ExecOutcome.failed b2, evolves + 1, checks + 1⟩
      else
        let checks2 := checks + (if constructionMode then 1 else 0)
        if env.deviationExceeded b2 k then
          ⟨ExecOutcome.failed b2, evolves + 1, checks2⟩
        else if !(env.checkTrueStateValidity b2 k) then
          ⟨ExecOutcome.failed b2, evolves + 1, checks2 + 1⟩
        else
          ExecuteAux env constructionMode fuel b2 (k + 1)
            (cost + env.traceCov b2) (evolves + 1) (checks2 + 1)

/-- `Controller::Execute(startState, ...)` (lines 240-368): the loop starts
at `k = 0` with `cost = 0.001`; `maxExecTime_` is computed in the
constructor but never read here, so the only exits are goal reach,
collision and deviation. -/
def Execute {B : Type} (env : CtrlEnv B) (constructionMode : Bool)
    (fuel : ℕ) (startState : B) : ExecTrace B :=
  ExecuteAux env constructionMode fuel startState 0 (1/1000) 0 0

/-- The linearization pair selected by `Controller::Evolve`
(Controller.h lines 487-508).  `goalLS` stands for the freshly constructed
`LinearSystem(si_, goal_, getZeroControl(), zCorrected, ...)` to which both
`current` and `next` are initialised; `lss` is the stored sequence, `t` the
time index.  The C++ guard `(Length() > 0) && (t <= Length()-1)` on
`size_t` cannot underflow thanks to short-circuit evaluation, which the
conjunction mirrors. -/
def evolveLinSystems {α : Type} (lss : List α) (goalLS : α) (t : ℕ) : α × α :=
  if 0 < lss.length ∧ t ≤ lss.length - 1 then
    if t = lss.length - 1 then (lss.getD t goalLS, goalLS)
    else (lss.getD t goalLS, lss.getD (t + 1) goalLS)
  else (goalLS, goalLS)

/-- A controller environment in which the goal is never reached, every
state is valid and the deviation test never fires: the `Execute` loop then
never exits. -/
def divergeEnv : CtrlEnv Unit :=
  { isTerminated := fun _ _ => false
    evolve := fun b _ => b
    checkTrueStateValidity := fun _ _ => true
    deviationExceeded := fun _ _ => false
    traceCov := fun _ => 0 }

/-- A controller environment whose true state is invalid at every step
while the deviation test never fires. -/
def invalidEnv : CtrlEnv Unit :=
  { isTerminated := fun _ _ => false
    evolve := fun b _ => b
    checkTrueStateValidity := fun _ _ => false
    deviationExceeded := fun _ _ => false
    traceCov := fun _ => 0 }

/-- A benign counting environment over `B = ℕ`: each step increments the
belief, every state is valid, the deviation test never fires, and the
covariance trace equals the belief value. -/
def countEnv : CtrlEnv ℕ :=
  { isTerminated := fun _ _ => false
    evolve := fun b _ => b + 1
    checkTrueStateValidity := fun _ _ => true
    deviationExceeded := fun _ _ => false
    traceCov := fun b => (b : ℚ) }

end Controller

namespace FIRMCP

/-- The result of the `J`-minimisation loop is at most its initial value. -/
theorem foldlMin_le_init (q : ℕ → ℚ) :
    ∀ (l : List ℕ) (init : ℚ),
      l.foldl (fun acc c => if acc > q c then q c else acc) init ≤ init := by
  intro l
  induction l with
  | nil => intro init; simp
  | cons c0 l ih =>
    intro init
    simp only [List.foldl_cons]
    refine le_trans (ih _) ?_
    split_ifs with h
    · exact le_of_lt h
    · exact le_refl _

/-- The result of the `J`-minimisation loop is at most every scanned value. -/
theorem foldlMin_le_mem (q : ℕ → ℚ) :
    ∀ (l : List ℕ) (init : ℚ), ∀ c ∈ l,
      l.foldl (fun acc c => if acc > q c then q c else acc) init ≤ q c := by
  intro l
  induction l with
  | nil => intro init c hc; simp at hc
  | cons c0 l ih =>
    intro init c hc
    simp only [List.foldl_cons]
    rcases List.mem_cons.mp hc with h | h
    · subst h
      refine le_trans (foldlMin_le_init q l _) ?_
      split_ifs with hcmp
      · exact le_refl _
      · exact le_of_not_lt hcmp
    · exact ih _ c h

/-- The result of the `J`-minimisation loop is its initial value or one of
the scanned values. -/
theorem foldlMin_attained (q : ℕ → ℚ) :
    ∀ (l : List ℕ) (init : ℚ),
      l.foldl (fun acc c => if acc > q c then q c else acc) init = init ∨
        ∃ c ∈ l, l.foldl (fun acc c => if acc > q c then q c else acc) init = q c := by
  intro l
  induction l with
  | nil => intro init; exact Or.inl rfl
  | cons c0 l ih =>
    intro init
    simp only [List.foldl_cons]
    by_cases hcmp : init > q c0
    · rw [if_pos hcmp]
      rcases ih (q c0) with h | ⟨c, hc, h⟩
      · exact Or.inr ⟨c0, List.mem_cons_self _ _, h⟩
      · exact Or.inr ⟨c, List.mem_cons_of_mem _ hc, h⟩
    · rw [if_neg hcmp]
      rcases ih init with h | ⟨c, hc, h⟩
      · exact Or.inl h
      · exact Or.inr ⟨c, List.mem_cons_of_mem _ hc, h⟩

/-- After the backup writes `Q(h,qsel) := qUpd`, the value computed for
`J(h)` is a lower bound of the post-write `Q` table, provided `J(h)` was a
lower bound of the pre-write table. -/
theorem backup_jmin_le (q : ℕ → ℚ) (children : List ℕ) (qsel : ℕ) (qUpd jOld : ℚ)
    (hlb : ∀ c ∈ children, jOld ≤ q c) :
    ∀ c ∈ children,
      (if qUpd < jOld then qUpd
       else children.foldl (fun acc c => if acc > q c then q c else acc) qUpd)
        ≤ Function.update q qsel qUpd c := by
  intro c hc
  by_cases hif : qUpd < jOld
  · simp only [hif, if_true]
    by_cases hcq : c = qsel
    · subst hcq; simp
    · rw [Function.update_noteq hcq]
      exact le_trans (le_of_lt hif) (hlb c hc)
  · simp only [hif, if_false]
    by_cases hcq : c = qsel
    · subst hcq
      simp only [Function.update_same]
      exact foldlMin_le_init q children qUpd
    · rw [Function.update_noteq hcq]
      exact foldlMin_le_mem q children qUpd c hc

/-- When the backup does not increase the stored `Q(h,qsel)`, the computed
`J(h)` is exactly the minimum of the post-write `Q` table. -/
theorem backup_jmin_eq (q : ℕ → ℚ) (children : List ℕ) (qsel : ℕ) (qUpd jOld : ℚ)
    (hmem : qsel ∈ children)
    (hinv : IsMinOver jOld q children) (hni : qUpd ≤ q qsel) :
    IsMinOver
      (if qUpd < jOld then qUpd
       else children.foldl (fun acc c => if acc > q c then q c else acc) qUpd)
      (Function.update q qsel qUpd) children := by
  constructor
  · exact backup_jmin_le q children qsel qUpd jOld hinv.1
  · by_cases hif : qUpd < jOld
    · refine ⟨qsel, hmem, ?_⟩
      simp [hif]
    · simp only [hif, if_false]
      rcases foldlMin_attained q children qUpd with h | ⟨c, hc, h⟩
      · exact ⟨qsel, hmem, by simp [h]⟩
      · by_cases hcq : c = qsel
        · subst hcq
          have h1 : children.foldl (fun acc c' => if acc > q c' then q c' else acc) qUpd ≤ qUpd :=
            foldlMin_le_init q children qUpd
          have h2 : qUpd ≤ children.foldl (fun acc c' => if acc > q c' then q c' else acc) qUpd := by
            rw [h]; exact hni
          refine ⟨c, hc, ?_⟩
          rw [Function.update_same]
          exact le_antisymm h1 h2
        · exact ⟨c, hc, by rw [Function.update_noteq hcq]; exact h⟩

theorem minScanVal_le_init (score : ℕ → ℚ) :
    ∀ (l : List ℕ) (init : ℚ), minScanVal score init l ≤ init := by
  intro l
  induction l with
  | nil => intro init; exact le_refl _
  | cons c0 l ih =>
    intro init
    simp only [minScanVal, List.foldl_cons] at *
    refine le_trans (ih _) ?_
    split_ifs with h
    · exact h
    · exact le_refl _

theorem minScanVal_le_mem (score : ℕ → ℚ) :
    ∀ (l : List ℕ) (init : ℚ), ∀ c ∈ l, minScanVal score init l ≤ score c := by
  intro l
  induction l with
  | nil => intro init c hc; simp at hc
  | cons c0 l ih =>
    intro init c hc
    simp only [minScanVal, List.foldl_cons] at *
    rcases List.mem_cons.mp hc with h | h
    · subst h
      refine le_trans (minScanVal_le_init score l _) ?_
      split_ifs with hcmp
      · exact le_refl _
      · exact le_of_not_le hcmp
    · exact ih _ c h

theorem minScanVal_attained (score : ℕ → ℚ) :
    ∀ (l : List ℕ) (init : ℚ),
      minScanVal score init l = init ∨ ∃ c ∈ l, minScanVal score init l = score c := by
  intro l
  induction l with
  | nil => intro init; exact Or.inl rfl
  | cons c0 l ih =>
    intro init
    simp only [minScanVal, List.foldl_cons] at *
    by_cases hcmp : init ≥ score c0
    · rw [if_pos hcmp]
      rcases ih (score c0) with h | ⟨c, hc, h⟩
      · exact Or.inr ⟨c0, List.mem_cons_self _ _, h⟩
      · exact Or.inr ⟨c, List.mem_cons_of_mem _ hc, h⟩
    · rw [if_neg hcmp]
      rcases ih init with h | ⟨c, hc, h⟩
      · exact Or.inl h
      · exact Or.inr ⟨c, List.mem_cons_of_mem _ hc, h⟩

/-- The scan's tie list is exactly the (order-preserving) list of children
attaining the running minimum, prefixed by the carried-in list when the
minimum never strictly drops. -/
theorem argminScan_characterisation (score : ℕ → ℚ) :
    ∀ (children : List ℕ) (m : ℚ) (lst : List ℕ),
      children.foldl
        (fun acc c =>
          if acc.1 ≥ score c then (score c, (if acc.1 > score c then [] else acc.2) ++ [c])
          else acc)
        (m, lst) =
      (minScanVal score m children,
       (if minScanVal score m children = m then lst else []) ++
         children.filter (fun c => decide (score c = minScanVal score m children))) := by
  intro children
  induction children with
  | nil => intro m lst; simp [minScanVal]
  | cons c0 cs ih =>
    intro m lst
    have hstep : minScanVal score m (c0 :: cs) =
        minScanVal score (if m ≥ score c0 then score c0 else m) cs := by
      simp only [minScanVal, List.foldl_cons]
    by_cases hge : m ≥ score c0
    · have hF : minScanVal score m (c0 :: cs) = minScanVal score (score c0) cs := by
        rw [hstep, if_pos hge]
      simp only [List.foldl_cons, if_pos hge]
      rw [ih (score c0) ((if m > score c0 then [] else lst) ++ [c0]), hF]
      have hFle : minScanVal score (score c0) cs ≤ score c0 := minScanVal_le_init score cs _
      simp only [List.filter_cons, decide_eq_true_eq]
      by_cases hFs : minScanVal score (score c0) cs = score c0
      · rw [if_pos hFs, if_pos hFs.symm]
        by_cases hgt : m > score c0
        · have hne : minScanVal score (score c0) cs ≠ m := by
            rw [hFs]; exact ne_of_lt hgt
          rw [if_pos hgt, if_neg hne]
          simp
        · have hm : m = score c0 := le_antisymm (le_of_not_lt hgt) hge
          have heqm : minScanVal score (score c0) cs = m := by rw [hFs, hm]
          rw [if_neg hgt, if_pos heqm]
          simp
      · have hne : minScanVal score (score c0) cs ≠ m := by
          intro hcon
          exact hFs (le_antisymm hFle (hcon ▸ hge))
        have hx : ¬ score c0 = minScanVal score (score c0) cs := fun h => hFs h.symm
        rw [if_neg hFs, if_neg hne, if_neg hx]
    · have hF : minScanVal score m (c0 :: cs) = minScanVal score m cs := by
        rw [hstep, if_neg hge]
      simp only [List.foldl_cons, if_neg hge]
      rw [ih m lst, hF]
      have hlt : minScanVal score m cs < score c0 :=
        lt_of_le_of_lt (minScanVal_le_init score cs m) (lt_of_not_ge hge)
      simp only [List.filter_cons, decide_eq_true_eq]
      have hx : ¬ score c0 = minScanVal score m cs := fun h => (ne_of_lt hlt) h.symm
      rw [if_neg hx]

/-- The tie list produced by the scan is the list of children attaining the
minimum score, in their original order. -/
theorem argminScan_snd (score : ℕ → ℚ) (inf0 : ℚ) (children : List ℕ) :
    (argminScan score inf0 children).2 =
      children.filter (fun c => decide (score c = minScanVal score inf0 children)) := by
  unfold argminScan
  rw [argminScan_characterisation]
  simp

/-- The tie-broken selection always returns a child attaining the minimum
score, and every child attaining the minimum is returned for some draw of
`rand()`. -/
theorem selectTie_spec (score : ℕ → ℚ) (inf0 : ℚ) (children : List ℕ)
    (hne : children ≠ []) (hle : ∀ c ∈ children, score c ≤ inf0) :
    (∀ r : ℕ, selectFromTies (argminScan score inf0 children).2 r ∈ children ∧
      ∀ c ∈ children,
        score (selectFromTies (argminScan score inf0 children).2 r) ≤ score c) ∧
    (∀ c ∈ children, (∀ c' ∈ children, score c ≤ score c') →
      ∃ r : ℕ, selectFromTies (argminScan score inf0 children).2 r = c) := by
  have hex : ∃ c ∈ children, score c = minScanVal score inf0 children := by
    rcases minScanVal_attained score children inf0 with h | ⟨c, hc, h⟩
    · rcases List.exists_mem_of_ne_nil children hne with ⟨c0, hc0⟩
      refine ⟨c0, hc0, le_antisymm ?_ (minScanVal_le_mem score children inf0 c0 hc0)⟩
      rw [h]; exact hle c0 hc0
    · exact ⟨c, hc, h.symm⟩
  have hmemlst : ∀ x, x ∈ (argminScan score inf0 children).2 ↔
      (x ∈ children ∧ score x = minScanVal score inf0 children) := by
    intro x
    rw [argminScan_snd]
    simp [List.mem_filter]
  have hlstne : (argminScan score inf0 children).2 ≠ [] := by
    rcases hex with ⟨c, hc, h⟩
    intro hnil
    have : c ∈ (argminScan score inf0 children).2 := (hmemlst c).mpr ⟨hc, h⟩
    rw [hnil] at this
    exact List.not_mem_nil c this
  have hlen : 0 < (argminScan score inf0 children).2.length :=
    List.length_pos.mpr hlstne
  constructor
  · intro r
    have hidx : r % (argminScan score inf0 children).2.length <
        (argminScan score inf0 children).2.length := Nat.mod_lt _ hlen
    have hmem : selectFromTies (argminScan score inf0 children).2 r ∈
        (argminScan score inf0 children).2 := by
      unfold selectFromTies
      rw [List.getD_eq_getElem _ _ hidx]
      exact List.getElem_mem _
    rcases (hmemlst _).mp hmem with ⟨hin, hsc⟩
    refine ⟨hin, fun c hc => ?_⟩
    rw [hsc]
    exact minScanVal_le_mem score children inf0 c hc
  · intro c hc hmin
    have hceq : score c = minScanVal score inf0 children := by
      refine le_antisymm ?_ (minScanVal_le_mem score children inf0 c hc)
      rcases minScanVal_attained score children inf0 with h | ⟨c', hc', h⟩
      · rw [h]; exact hle c hc
      · rw [h]; exact hmin c' hc'
    have hmem : c ∈ (argminScan score inf0 children).2 := (hmemlst c).mpr ⟨hc, hceq⟩
    rcases List.mem_iff_get.mp hmem with ⟨n, hn⟩
    refine ⟨n.val, ?_⟩
    unfold selectFromTies
    rw [Nat.mod_eq_of_lt n.isLt, List.getD_eq_getElem _ _ n.isLt]
    rw [← hn]
    simp [List.get_eq_getElem]

end FIRMCP

/-- Claim C2: after each recursive call, the backup of the current vertex
for the selected action performs `N(h) += 1`, `N(h,q) += 1`, `M(h,q) += 1`
exactly on failure, forms `Q_k(h,q) = cStep + (J_child if ok else J_obs)`,
resets `Q(h,q)` to `0` first when the vertex was newly expanded on this
branch, and applies `Q(h,q) := Q(h,q) + (Q_k(h,q) - Q(h,q)) / N(h,q)` with
the incremented `N(h,q)`; and the rule of `pomcpSimulate` is literally the
same function as the rule of `pomcpRollout`. -/
theorem backup_update_rule (s : FIRMCP.QVstats) (qsel : ℕ) (cStep : ℚ) (ok : Bool)
    (childJ : ℚ) (newExp : Bool) (jObs : ℚ) :
    ((FIRMCP.backupSimulate s qsel cStep ok childJ newExp jObs).1.thisQVvisit
        = s.thisQVvisit + 1) ∧
    ((FIRMCP.backupSimulate s qsel cStep ok childJ newExp jObs).1.childQvisit qsel
        = s.childQvisit qsel + 1) ∧
    ((FIRMCP.backupSimulate s qsel cStep ok childJ newExp jObs).1.childQmiss qsel
        = s.childQmiss qsel + (if ok then 0 else 1)) ∧
    ((FIRMCP.backupSimulate s qsel cStep ok childJ newExp jObs).1.childQcosttogo qsel
        = (if newExp then 0 else s.childQcosttogo qsel) +
            ((cStep + (if ok then childJ else jObs)) -
              (if newExp then 0 else s.childQcosttogo qsel)) / (s.childQvisit qsel + 1)) ∧
    FIRMCP.backupSimulate = FIRMCP.backupRollout := by
  refine ⟨?_, ?_, ?_, ?_, rfl⟩
  · simp [FIRMCP.backupSimulate]
  · simp [FIRMCP.backupSimulate]
  · cases ok <;> simp [FIRMCP.backupSimulate]
  · simp [FIRMCP.backupSimulate]

/-- Claim C1 is false on the code: two concrete backups leave `J(h)`
different from `min_q Q(h,q)`.  First, a main backup on `exStats` (child
cost-to-go rises from `5` to `15/2`, but the minimisation loop reads the
stale stored value, leaving `J = 5`).  Second, a horizon backup on
`exStats` sets `J := J_obs = 1000` while the only child keeps `Q = 5`. -/
theorem backup_min_claim_false :
    (¬ FIRMCP.IsMinOver
        (FIRMCP.backupSimulate FIRMCP.exStats 0 0 true 10 false 1000).1.thisQVmincosttogo
        (FIRMCP.backupSimulate FIRMCP.exStats 0 0 true 10 false 1000).1.childQcosttogo
        (FIRMCP.backupSimulate FIRMCP.exStats 0 0 true 10 false 1000).1.childQnodes) ∧
    (¬ FIRMCP.IsMinOver
        (FIRMCP.backupAtHorizon FIRMCP.exStats 1000).1.thisQVmincosttogo
        (FIRMCP.backupAtHorizon FIRMCP.exStats 1000).1.childQcosttogo
        (FIRMCP.backupAtHorizon FIRMCP.exStats 1000).1.childQnodes) := by
  constructor
  · intro hmin
    rcases hmin.2 with ⟨c, hc, heq⟩
    simp only [FIRMCP.backupSimulate, FIRMCP.exStats, List.mem_singleton] at hc
    subst hc
    simp [FIRMCP.backupSimulate, FIRMCP.exStats, Function.update] at heq
    norm_num at heq
  · intro hmin
    rcases hmin.2 with ⟨c, hc, heq⟩
    simp only [FIRMCP.backupAtHorizon, FIRMCP.exStats, List.mem_singleton] at hc
    subst hc
    simp [FIRMCP.backupAtHorizon, FIRMCP.exStats] at heq

/-- Claim C1 (amended): the horizon backups set `J(h)` directly to the
backed-up value, irrespective of the child `Q` table.  For the main backup,
if `J(h) = min_q Q(h,q)` held beforehand and the selected action is a child
of `h`, then after the backup `J(h)` is a lower bound of the updated `Q`
table, and `J(h) = min_q Q(h,q)` holds exactly whenever the backup does not
increase `Q(h,q_sel)` (when it increases, the minimisation loop reads the
pre-write value and `J(h)` can stay strictly below the minimum). -/
theorem backup_min_invariant (s : FIRMCP.QVstats) (qsel : ℕ) (cStep : ℚ) (ok : Bool)
    (childJ : ℚ) (newExp : Bool) (jObs : ℚ)
    (hmem : qsel ∈ s.childQnodes)
    (hinv : FIRMCP.IsMinOver s.thisQVmincosttogo s.childQcosttogo s.childQnodes) :
    (∀ v : ℚ, (FIRMCP.backupAtHorizon s v).1.thisQVmincosttogo = v) ∧
    (∀ c ∈ (FIRMCP.backupSimulate s qsel cStep ok childJ newExp jObs).1.childQnodes,
      (FIRMCP.backupSimulate s qsel cStep ok childJ newExp jObs).1.thisQVmincosttogo ≤
        (FIRMCP.backupSimulate s qsel cStep ok childJ newExp jObs).1.childQcosttogo c) ∧
    ((FIRMCP.backupSimulate s qsel cStep ok childJ newExp jObs).1.childQcosttogo qsel ≤
        s.childQcosttogo qsel →
      FIRMCP.IsMinOver
        (FIRMCP.backupSimulate s qsel cStep ok childJ newExp jObs).1.thisQVmincosttogo
        (FIRMCP.backupSimulate s qsel cStep ok childJ newExp jObs).1.childQcosttogo
        (FIRMCP.backupSimulate s qsel cStep ok childJ newExp jObs).1.childQnodes) := by
  refine ⟨fun v => rfl, ?_, ?_⟩
  · simp only [FIRMCP.backupSimulate]
    exact FIRMCP.backup_jmin_le s.childQcosttogo s.childQnodes qsel _ s.thisQVmincosttogo hinv.1
  · simp only [FIRMCP.backupSimulate, Function.update_same]
    intro hni
    exact FIRMCP.backup_jmin_eq s.childQcosttogo s.childQnodes qsel _ s.thisQVmincosttogo
      hmem hinv hni

/-- Witness for `backup_min_invariant` at the concrete vertex `exStats`
with a successful execution of cost `0` and child cost-to-go `0` (the
updated `Q(h,0) = 5/2` does not exceed the stored `5`). -/
theorem backup_min_invariant_witness :
    (∀ v : ℚ, (FIRMCP.backupAtHorizon FIRMCP.exStats v).1.thisQVmincosttogo = v) ∧
    (∀ c ∈ (FIRMCP.backupSimulate FIRMCP.exStats 0 0 true 0 false 1000).1.childQnodes,
      (FIRMCP.backupSimulate FIRMCP.exStats 0 0 true 0 false 1000).1.thisQVmincosttogo ≤
        (FIRMCP.backupSimulate FIRMCP.exStats 0 0 true 0 false 1000).1.childQcosttogo c) ∧
    ((FIRMCP.backupSimulate FIRMCP.exStats 0 0 true 0 false 1000).1.childQcosttogo 0 ≤
        FIRMCP.exStats.childQcosttogo 0 →
      FIRMCP.IsMinOver
        (FIRMCP.backupSimulate FIRMCP.exStats 0 0 true 0 false 1000).1.thisQVmincosttogo
        (FIRMCP.backupSimulate FIRMCP.exStats 0 0 true 0 false 1000).1.childQcosttogo
        (FIRMCP.backupSimulate FIRMCP.exStats 0 0 true 0 false 1000).1.childQnodes) :=
  backup_min_invariant FIRMCP.exStats 0 0 true 0 false 1000 (by decide) (by decide)

/-- Claim C3: in `pomcpSimulate`, for an already-expanded vertex at depth
`< maxPOMCPDepth_`, the selected action minimises
`Q(v,q) - cExplorationForSimulate * sqrt(log(N(h)+1) / (N(h,q)+1e-10))`
over the vertex's child actions, and every action attaining the minimum is
selected for some draw of `rand()` (ties broken among the equal-minimum
actions). -/
theorem pomcp_ucb_selection (rsqrt rlog : ℚ → ℚ) (cExp inf0 : ℚ)
    (s : FIRMCP.QVstats)
    (hne : s.childQnodes ≠ [])
    (hle : ∀ c ∈ s.childQnodes,
      FIRMCP.ucbScore rsqrt rlog cExp s.thisQVvisit
        (s.childQcosttogo c) (s.childQvisit c) ≤ inf0) :
    (∀ r : ℕ,
      FIRMCP.pomcpSelectAction rsqrt rlog cExp inf0 s r ∈ s.childQnodes ∧
      ∀ c ∈ s.childQnodes,
        FIRMCP.ucbScore rsqrt rlog cExp s.thisQVvisit
            (s.childQcosttogo (FIRMCP.pomcpSelectAction rsqrt rlog cExp inf0 s r))
            (s.childQvisit (FIRMCP.pomcpSelectAction rsqrt rlog cExp inf0 s r)) ≤
          FIRMCP.ucbScore rsqrt rlog cExp s.thisQVvisit
            (s.childQcosttogo c) (s.childQvisit c)) ∧
    (∀ c ∈ s.childQnodes,
      (∀ c' ∈ s.childQnodes,
        FIRMCP.ucbScore rsqrt rlog cExp s.thisQVvisit
            (s.childQcosttogo c) (s.childQvisit c) ≤
          FIRMCP.ucbScore rsqrt rlog cExp s.thisQVvisit
            (s.childQcosttogo c') (s.childQvisit c')) →
      ∃ r : ℕ, FIRMCP.pomcpSelectAction rsqrt rlog cExp inf0 s r = c) :=
  FIRMCP.selectTie_spec
    (fun c => FIRMCP.ucbScore rsqrt rlog cExp s.thisQVvisit
      (s.childQcosttogo c) (s.childQvisit c)) inf0 s.childQnodes hne hle

/-- Witness for `pomcp_ucb_selection` at the vertex `exStatsTwo` with the
constant-zero abstraction of `sqrt`, zero exploration constant and
`infiniteCostToGo_ = 100`. -/
theorem pomcp_ucb_selection_witness :
    (∀ r : ℕ,
      FIRMCP.pomcpSelectAction (fun _ => 0) (fun _ => 0) 0 100 FIRMCP.exStatsTwo r ∈
        FIRMCP.exStatsTwo.childQnodes ∧
      ∀ c ∈ FIRMCP.exStatsTwo.childQnodes,
        FIRMCP.ucbScore (fun _ => 0) (fun _ => 0) 0 FIRMCP.exStatsTwo.thisQVvisit
            (FIRMCP.exStatsTwo.childQcosttogo
              (FIRMCP.pomcpSelectAction (fun _ => 0) (fun _ => 0) 0 100 FIRMCP.exStatsTwo r))
            (FIRMCP.exStatsTwo.childQvisit
              (FIRMCP.pomcpSelectAction (fun _ => 0) (fun _ => 0) 0 100 FIRMCP.exStatsTwo r)) ≤
          FIRMCP.ucbScore (fun _ => 0) (fun _ => 0) 0 FIRMCP.exStatsTwo.thisQVvisit
            (FIRMCP.exStatsTwo.childQcosttogo c) (FIRMCP.exStatsTwo.childQvisit c)) ∧
    (∀ c ∈ FIRMCP.exStatsTwo.childQnodes,
      (∀ c' ∈ FIRMCP.exStatsTwo.childQnodes,
        FIRMCP.ucbScore (fun _ => 0) (fun _ => 0) 0 FIRMCP.exStatsTwo.thisQVvisit
            (FIRMCP.exStatsTwo.childQcosttogo c) (FIRMCP.exStatsTwo.childQvisit c) ≤
          FIRMCP.ucbScore (fun _ => 0) (fun _ => 0) 0 FIRMCP.exStatsTwo.thisQVvisit
            (FIRMCP.exStatsTwo.childQcosttogo c') (FIRMCP.exStatsTwo.childQvisit c')) →
      ∃ r : ℕ,
        FIRMCP.pomcpSelectAction (fun _ => 0) (fun _ => 0) 0 100 FIRMCP.exStatsTwo r = c) :=
  pomcp_ucb_selection (fun _ => 0) (fun _ => 0) 0 100 FIRMCP.exStatsTwo
    (by simp [FIRMCP.exStatsTwo])
    (by
      intro c hc
      simp only [FIRMCP.ucbScore, FIRMCP.exStatsTwo] at *
      split_ifs <;> norm_num)

/-- Claim C8: with zero particles, `generatePOMCPPolicy` performs no
simulation and mutates no statistic of any vertex: the statistics map is
returned unchanged (whatever the per-particle simulation would have done),
and the returned edge goes from the root to a child action attaining the
minimum stored `Q(root,q)`, every such action being selected for some draw
of `rand()`. -/
theorem chooseAction_zero_particles
    (simulateParticle : (ℕ → FIRMCP.QVstats) → (ℕ → FIRMCP.QVstats))
    (inf0 : ℚ) (stats : ℕ → FIRMCP.QVstats) (root : ℕ)
    (hne : (stats root).childQnodes ≠ [])
    (hle : ∀ c ∈ (stats root).childQnodes, (stats root).childQcosttogo c ≤ inf0) :
    (∀ r : ℕ,
      (FIRMCP.generatePOMCPPolicy simulateParticle 0 inf0 stats root r).1 = stats ∧
      (FIRMCP.generatePOMCPPolicy simulateParticle 0 inf0 stats root r).2.1 = root ∧
      (FIRMCP.generatePOMCPPolicy simulateParticle 0 inf0 stats root r).2.2 ∈
        (stats root).childQnodes ∧
      ∀ c ∈ (stats root).childQnodes,
        (stats root).childQcosttogo
            ((FIRMCP.generatePOMCPPolicy simulateParticle 0 inf0 stats root r).2.2) ≤
          (stats root).childQcosttogo c) ∧
    (∀ c ∈ (stats root).childQnodes,
      (∀ c' ∈ (stats root).childQnodes,
        (stats root).childQcosttogo c ≤ (stats root).childQcosttogo c') →
      ∃ r : ℕ,
        (FIRMCP.generatePOMCPPolicy simulateParticle 0 inf0 stats root r).2.2 = c) := by
  have hspec := FIRMCP.selectTie_spec
    (fun c => (stats root).childQcosttogo c) inf0 (stats root).childQnodes hne hle
  constructor
  · intro r
    refine ⟨rfl, rfl, ?_, ?_⟩
    · exact (hspec.1 r).1
    · exact (hspec.1 r).2
  · intro c hc hmin
    rcases hspec.2 c hc hmin with ⟨r, hr⟩
    exact ⟨r, hr⟩

/-- Witness for `chooseAction_zero_particles` on the two-action statistics
map constantly equal to `exStatsTwo`, with the identity as the (never
invoked) per-particle simulation. -/
theorem chooseAction_zero_particles_witness :
    (∀ r : ℕ,
      (FIRMCP.generatePOMCPPolicy id 0 100 (fun _ => FIRMCP.exStatsTwo) 0 r).1 =
        (fun _ => FIRMCP.exStatsTwo) ∧
      (FIRMCP.generatePOMCPPolicy id 0 100 (fun _ => FIRMCP.exStatsTwo) 0 r).2.1 = 0 ∧
      (FIRMCP.generatePOMCPPolicy id 0 100 (fun _ => FIRMCP.exStatsTwo) 0 r).2.2 ∈
        FIRMCP.exStatsTwo.childQnodes ∧
      ∀ c ∈ FIRMCP.exStatsTwo.childQnodes,
        FIRMCP.exStatsTwo.childQcosttogo
            ((FIRMCP.generatePOMCPPolicy id 0 100 (fun _ => FIRMCP.exStatsTwo) 0 r).2.2) ≤
          FIRMCP.exStatsTwo.childQcosttogo c) ∧
    (∀ c ∈ FIRMCP.exStatsTwo.childQnodes,
      (∀ c' ∈ FIRMCP.exStatsTwo.childQnodes,
        FIRMCP.exStatsTwo.childQcosttogo c ≤ FIRMCP.exStatsTwo.childQcosttogo c') →
      ∃ r : ℕ,
        (FIRMCP.generatePOMCPPolicy id 0 100 (fun _ => FIRMCP.exStatsTwo) 0 r).2.2 = c) :=
  chooseAction_zero_particles id 100 (fun _ => FIRMCP.exStatsTwo) 0
    (by simp [FIRMCP.exStatsTwo])
    (by
      intro c hc
      simp only [FIRMCP.exStatsTwo]
      split_ifs <;> norm_num)

/-- Claim C4 is right about the intent but the code lacks the bound: the
`Execute` loop contains no `maxExecTime_` check (the constructor computes
`maxExecTime_ = ceil(3*L)` but `Execute` never reads it).  In an
environment where the goal is never reached and no failure test fires, a
controller with `L = 1` linear systems (bound `maxExecTime 1 = 3`) is still
running after 10 `Evolve` iterations. -/
theorem execute_no_maxExecTime_bound :
    Controller.maxExecTime 1 = 3 ∧
    (Controller.Execute Controller.divergeEnv true 10 ()).evolveCalls = 10 ∧
    (Controller.Execute Controller.divergeEnv true 10 ()).outcome =
      Controller.ExecOutcome.running 10 :=
  ⟨rfl, rfl, rfl⟩

/-- Claim C5 is false on the code: with `constructionMode = false`,
`executeOneStep` still invokes one true-state validity check (inside the
short-circuited condition `deviation > threshold || !checkTrueStateValidity()`,
Controller.h line 411) and the step fails on an invalid true state even
though the deviation test passes. -/
theorem execution_mode_checks_claim_false :
    (Controller.executeOneStep Controller.invalidEnv false 0 () 0).validityChecks = 1 ∧
    (Controller.executeOneStep Controller.invalidEnv false 0 () 0).ok = false ∧
    Controller.invalidEnv.deviationExceeded
      (Controller.invalidEnv.evolve () 0) 0 = false :=
  ⟨rfl, rfl, rfl⟩

/-- Claim C5 (amended): with `constructionMode = false` the dedicated
post-`Evolve` validity check is skipped, but the deviation test's combined
condition still invokes one true-state validity check whenever the
deviation is within the threshold (skipped only by short-circuit when the
deviation already fails), and a step then fails exactly when the deviation
test fails or the true-state validity check fails; the `Execute` loop in
execution mode likewise performs a validity check in every non-deviating
iteration. -/
theorem execution_mode_validity_checks {B : Type} (env : Controller.CtrlEnv B)
    (k : ℕ) (b : B) (costIn : ℚ) :
    ((Controller.executeOneStep env false k b costIn).validityChecks
        = if env.deviationExceeded (env.evolve b k) k then 0 else 1) ∧
    ((Controller.executeOneStep env false k b costIn).ok
        = (!env.deviationExceeded (env.evolve b k) k &&
            env.checkTrueStateValidity (env.evolve b k) k)) ∧
    (∀ b0 : B, env.isTerminated b0 0 = false →
      env.deviationExceeded (env.evolve b0 0) 0 = false →
      1 ≤ (Controller.Execute env false 1 b0).validityChecks) := by
  refine ⟨?_, ?_, ?_⟩
  · cases hdev : env.deviationExceeded (env.evolve b k) k <;>
      cases hval : env.checkTrueStateValidity (env.evolve b k) k <;>
      simp [Controller.executeOneStep, hdev, hval]
  · cases hdev : env.deviationExceeded (env.evolve b k) k <;>
      cases hval : env.checkTrueStateValidity (env.evolve b k) k <;>
      simp [Controller.executeOneStep, hdev, hval]
  · intro b0 h1 h2
    cases hval : env.checkTrueStateValidity (env.evolve b0 0) 0 <;>
      simp [Controller.Execute, Controller.ExecuteAux, h1, h2, hval]

/-- Witness for `execution_mode_validity_checks` on the concrete
environment `invalidEnv` at step 0. -/
theorem execution_mode_validity_checks_witness :
    ((Controller.executeOneStep Controller.invalidEnv false 0 () 0).validityChecks
        = if Controller.invalidEnv.deviationExceeded
            (Controller.invalidEnv.evolve () 0) 0 then 0 else 1) ∧
    ((Controller.executeOneStep Controller.invalidEnv false 0 () 0).ok
        = (!Controller.invalidEnv.deviationExceeded (Controller.invalidEnv.evolve () 0) 0 &&
            Controller.invalidEnv.checkTrueStateValidity (Controller.invalidEnv.evolve () 0) 0)) ∧
    1 ≤ (Controller.Execute Controller.invalidEnv false 1 ()).validityChecks :=
  ⟨(execution_mode_validity_checks Controller.invalidEnv 0 () 0).1,
   (execution_mode_validity_checks Controller.invalidEnv 0 () 0).2.1,
   (execution_mode_validity_checks Controller.invalidEnv 0 () 0).2.2 () rfl rfl⟩

/-- Claim C7 is false on the code: `executeOneStep` overwrites the
`filteringCost` out-parameter instead of accumulating into it, so a
two-step `executeUpto` run with per-step costs `0.001 + 1` and `0.001 + 2`
reports `0.001 + 2`, not the claimed accumulation `(0.001+1)+(0.001+2)`. -/
theorem executeUpto_cost_claim_false :
    (Controller.executeUpto Controller.countEnv false 2 0 0 0).2.2 = 1/1000 + 2 ∧
    (1/1000 + 2 : ℚ) ≠ (1/1000 + 1) + (1/1000 + 2) := by
  constructor
  · simp [Controller.executeUpto, Controller.executeUptoAux, Controller.executeOneStep,
      Controller.countEnv]
  · norm_num

/-- `executeOneStep` does not read the incoming cost except to return it on
failure; on a step that succeeds it returns the evolved state and the cost
`0.001 + trace(covariance)` of that step alone. -/
theorem executeOneStep_ok_result {B : Type} (env : Controller.CtrlEnv B)
    (cm : Bool) (k : ℕ) (b : B) (c : ℚ)
    (hok : (Controller.executeOneStep env cm k b 0).ok = true) :
    Controller.executeOneStep env cm k b c =
      { ok := true, endState := env.evolve b k
        filteringCost := 1/1000 + env.traceCov (env.evolve b k)
        validityChecks := (if cm then 1 else 0) + 1 } := by
  simp only [Controller.executeOneStep] at hok ⊢
  split_ifs at hok ⊢ <;> simp_all

/-- Shifting the start of the belief sequence by one executed step. -/
theorem beliefSeq_shift {B : Type} (env : Controller.CtrlEnv B) (k : ℕ) (b : B) :
    ∀ t, Controller.beliefSeq env (k + 1) (env.evolve b k) t =
      Controller.beliefSeq env k b (t + 1) := by
  intro t
  induction t with
  | zero => rfl
  | succ t ih =>
    show env.evolve (Controller.beliefSeq env (k + 1) (env.evolve b k) t) (k + 1 + t) =
      env.evolve (Controller.beliefSeq env k b (t + 1)) (k + (t + 1))
    rw [ih]
    congr 1
    omega

/-- When every remaining step succeeds, the `executeUpto` loop returns the
final belief and the LAST step's cost (the out-parameter is overwritten at
each step). -/
theorem executeUptoAux_all_ok {B : Type} (env : Controller.CtrlEnv B) (cm : Bool) :
    ∀ (n k : ℕ) (b e : B) (c : ℚ),
      (∀ t, t < n →
        (Controller.executeOneStep env cm (k + t)
          (Controller.beliefSeq env k b t) 0).ok = true) →
      1 ≤ n →
      Controller.executeUptoAux env cm n k b e c =
        (true, Controller.beliefSeq env k b n,
         1/1000 + env.traceCov (Controller.beliefSeq env k b n)) := by
  intro n
  induction n with
  | zero => intro k b e c _ h1; omega
  | succ n ih =>
    intro k b e c hok _
    have hok0 : (Controller.executeOneStep env cm k b 0).ok = true := by
      have := hok 0 (Nat.succ_pos n)
      simpa [Controller.beliefSeq] using this
    have hres := executeOneStep_ok_result env cm k b c hok0
    show (let r := Controller.executeOneStep env cm k b c
      if r.ok then
        Controller.executeUptoAux env cm n (k + 1) r.endState r.endState r.filteringCost
      else (false, r.endState, r.filteringCost)) =
      (true, Controller.beliefSeq env k b (n + 1),
       1/1000 + env.traceCov (Controller.beliefSeq env k b (n + 1)))
    rw [hres]
    simp only [if_pos]
    by_cases hn : 1 ≤ n
    · rw [ih (k + 1) (env.evolve b k) (env.evolve b k)
        (1/1000 + env.traceCov (env.evolve b k)) ?_ hn]
      · rw [beliefSeq_shift env k b n]
      · intro t ht
        rw [beliefSeq_shift env k b t]
        have := hok (t + 1) (by omega)
        have harith : k + (t + 1) = k + 1 + t := by omega
        rw [← harith]
        exact this
    · have hn0 : n = 0 := by omega
      subst hn0
      show Controller.executeUptoAux env cm 0 (k + 1) (env.evolve b k) (env.evolve b k)
          (1/1000 + env.traceCov (env.evolve b k)) =
        (true, Controller.beliefSeq env k b 1,
         1/1000 + env.traceCov (Controller.beliefSeq env k b 1))
      have hb1 : Controller.beliefSeq env k b 1 = env.evolve b k := by
        show env.evolve (Controller.beliefSeq env k b 0) (k + 0) = env.evolve b k
        rw [Nat.add_zero]
        rfl
      rw [hb1]
      rfl

/-- Claim C7 (amended): for every `N ≥ 1`, a fully successful
`executeUpto(N, B0)` run returns `true`, the belief after the `N`-th step,
and in its cost out-parameter the per-step cost of the LAST executed step
only — the small positive bias `0.001` plus the trace of that step's
posterior covariance; earlier steps' costs are overwritten, not
accumulated. -/
theorem executeUpto_returns_last_step_cost {B : Type} (env : Controller.CtrlEnv B)
    (cm : Bool) (numSteps : ℕ) (b endIn : B) (costIn : ℚ)
    (hpos : 1 ≤ numSteps)
    (hok : ∀ t, t < numSteps →
      (Controller.executeOneStep env cm t (Controller.beliefSeq env 0 b t) 0).ok = true) :
    Controller.executeUpto env cm numSteps b endIn costIn =
      (true, Controller.beliefSeq env 0 b numSteps,
       1/1000 + env.traceCov (Controller.beliefSeq env 0 b numSteps)) := by
  unfold Controller.executeUpto
  refine executeUptoAux_all_ok env cm numSteps 0 b endIn costIn ?_ hpos
  intro t ht
  have := hok t ht
  simpa using this

/-- Witness for `executeUpto_returns_last_step_cost` on the counting
environment with two steps. -/
theorem executeUpto_returns_last_step_cost_witness :
    Controller.executeUpto Controller.countEnv false 2 0 0 5 =
      (true, Controller.beliefSeq Controller.countEnv 0 0 2,
       1/1000 + Controller.countEnv.traceCov
         (Controller.beliefSeq Controller.countEnv 0 0 2)) :=
  executeUpto_returns_last_step_cost Controller.countEnv false 2 0 0 5 (by decide)
    (by decide)

/-- Claim C10: the linearization pair handed to the filter by
`Controller::Evolve`: when `t ≥ L` or `L = 0` both `current` and `next`
stay the freshly constructed goal-based `LinearSystem`; when `t = L - 1`
(with `L > 0`) only `current` is the stored `lss_[L-1]` while `next` stays
goal-based; and for `t < L - 1` the pair is `(lss_[t], lss_[t+1])`. -/
theorem evolve_linearization_boundary {α : Type} (lss : List α) (goalLS : α) (t : ℕ) :
    ((lss.length ≤ t ∨ lss.length = 0) →
      Controller.evolveLinSystems lss goalLS t = (goalLS, goalLS)) ∧
    (lss.length = t + 1 →
      Controller.evolveLinSystems lss goalLS t = (lss.getD t goalLS, goalLS)) ∧
    (t + 1 < lss.length →
      Controller.evolveLinSystems lss goalLS t =
        (lss.getD t goalLS, lss.getD (t + 1) goalLS)) := by
  unfold Controller.evolveLinSystems
  refine ⟨?_, ?_, ?_⟩
  · intro h
    rw [if_neg]
    rintro ⟨h1, h2⟩
    rcases h with h | h <;> omega
  · intro h
    rw [if_pos ⟨by omega, by omega⟩, if_pos (by omega)]
  · intro h
    rw [if_pos ⟨by omega, by omega⟩, if_neg (by omega)]

/-- Witness for `evolve_linearization_boundary` on a stored sequence of two
linear systems: past the end (`t = 5`), at the last index (`t = 1`), and in
the interior (`t = 0`). -/
theorem evolve_linearization_boundary_witness :
    Controller.evolveLinSystems ([10, 20] : List ℕ) 99 5 = (99, 99) ∧
    Controller.evolveLinSystems ([10, 20] : List ℕ) 99 1 =
      (([10, 20] : List ℕ).getD 1 99, 99) ∧
    Controller.evolveLinSystems ([10, 20] : List ℕ) 99 0 =
      (([10, 20] : List ℕ).getD 0 99, ([10, 20] : List ℕ).getD 1 99) :=
  ⟨(evolve_linearization_boundary ([10, 20] : List ℕ) 99 5).1 (Or.inl (by decide)),
   (evolve_linearization_boundary ([10, 20] : List ℕ) 99 1).2.1 (by decide),
   (evolve_linearization_boundary ([10, 20] : List ℕ) 99 0).2.2 (by decide)⟩

/-- The weight-section fold computes the running total and the list of
partial sums of the weights it is given. -/
theorem sectionsFold_spec (ws : List ℚ) :
    ∀ (s : ℚ) (pre : List ℚ),
      ws.foldl (fun (acc : ℚ × List ℚ) w => (acc.1 + w, acc.2 ++ [acc.1 + w])) (s, pre) =
        (s + ws.sum,
         pre ++ (List.range ws.length).map (fun j => s + ((ws.take (j + 1)).sum))) := by
  induction ws with
  | nil => intro s pre; simp
  | cons w ws ih =>
    intro s pre
    simp only [List.foldl_cons]
    rw [ih (s + w) (pre ++ [s + w])]
    refine Prod.ext ?_ ?_
    · simp [add_assoc]
    · simp only [List.length_cons, List.range_succ_eq_map, List.map_cons, List.map_map]
      simp [Function.comp, List.take_succ_cons, add_assoc]

/-- The section-lookup loop returns the first index whose section value
exceeds the draw. -/
theorem selectSection_spec (u : ℚ) :
    ∀ (ws : List ℚ) (j : ℕ), FIRMCP.selectSection u ws = some j →
      j < ws.length ∧ u < ws.getD j 0 ∧ ∀ i, i < j → ws.getD i 0 ≤ u := by
  intro ws
  induction ws with
  | nil => intro j h; simp [FIRMCP.selectSection] at h
  | cons w ws ih =>
    intro j h
    simp only [FIRMCP.selectSection] at h
    by_cases hu : u < w
    · rw [if_pos hu] at h
      have hj : j = 0 := by
        have := Option.some.inj h
        omega
      subst hj
      exact ⟨by simp, by simpa using hu, fun i hi => absurd hi (Nat.not_lt_zero i)⟩
    · rw [if_neg hu] at h
      rcases Option.map_eq_some'.mp h with ⟨j', hj', hjj⟩
      rcases ih j' hj' with ⟨h1, h2, h3⟩
      subst hjj
      refine ⟨by simpa using Nat.succ_lt_succ h1, by simpa using h2, ?_⟩
      intro i hi
      cases i with
      | zero => simpa using le_of_not_lt hu
      | succ i =>
        have := h3 i (by omega)
        simpa using this

/-- Claim C6 is false on the code: the within-reach flag is computed from
the FIRST child only (the loop at FIRMCP.cpp:1577-1581 breaks after one
iteration), so a vertex whose first neighbor is out of reach but whose
second neighbor is within reach gets the out-of-reach weights, while the
claim ("any of the vertex's neighbor FIRM nodes") demands the within-reach
weights. -/
theorem rollout_reach_claim_false :
    (([1, 2] : List ℕ).any (fun c => decide (c = 2)) = true) ∧
    FIRMCP.rolloutWeights (fun q _ => q) 7 0 7 1 (fun c => decide (c = 2))
        (fun _ => 1) [1, 2] ≠
      FIRMCP.rolloutWeightsSpec (fun q _ => q) 7 0 7 1 (fun c => decide (c = 2))
        (fun _ => 1) [1, 2] := by
  constructor
  · decide
  · intro h
    simp [FIRMCP.rolloutWeights, FIRMCP.rolloutWeightsSpec, FIRMCP.rolloutWithinReach,
      FIRMCP.rolloutWeight] at h

/-- Element lookup in the doubly-mapped section list. -/
theorem getD_range_map_map (n j : ℕ) (g : ℕ → ℚ) (f : ℚ → ℚ) (hj : j < n) :
    ((((List.range n).map g).map f).getD j 0) = f (g j) := by
  have hlen : j < (((List.range n).map g).map f).length := by simpa using hj
  rw [List.getD_eq_getElem _ _ hlen]
  simp

/-- Claim C6 (amended): below the depth horizon, `pomcpRollout` computes
one reach flag from the FIRST child in the vertex's child-action list (not
from any neighbor); every child's weight then uses the within-reach formula
`1/(Q^cExploitationForRolloutWithinReach + costToGoRegulatorWithinReach)`
exactly when that flag holds and the out-of-reach formula otherwise; the
accumulated sections are the partial sums of those weights with total
`weightSum`; and the sampled action is `children[j]` for the first `j`
whose normalised partial sum `(w_1+...+w_{j+1})/weightSum` exceeds the
uniform draw `u`, all smaller partial sums being `≤ u` — i.e. each child is
selected exactly on a `u`-interval of length `w_j / weightSum`. -/
theorem rollout_weight_selection (rpow : ℚ → ℚ → ℚ) (cW regW cO regO : ℚ)
    (reached : ℕ → Bool) (costtogo : ℕ → ℚ) (children : List ℕ) (u : ℚ) :
    (FIRMCP.rolloutWeights rpow cW regW cO regO reached costtogo children =
      children.map (fun c =>
        if reached (children.getD 0 0) then 1 / (rpow (costtogo c) cW + regW)
        else 1 / (rpow (costtogo c) cO + regO))) ∧
    ((FIRMCP.rolloutSections rpow cW regW cO regO reached costtogo children).1 =
      (FIRMCP.rolloutWeights rpow cW regW cO regO reached costtogo children).sum) ∧
    ((FIRMCP.rolloutSections rpow cW regW cO regO reached costtogo children).2 =
      (List.range children.length).map (fun j =>
        ((FIRMCP.rolloutWeights rpow cW regW cO regO reached costtogo children).take
          (j + 1)).sum)) ∧
    (∀ x, FIRMCP.rolloutSelectAction rpow cW regW cO regO reached costtogo children u =
        some x →
      ∃ j, j < children.length ∧ x = children.getD j 0 ∧
        u < ((FIRMCP.rolloutWeights rpow cW regW cO regO reached costtogo
              children).take (j + 1)).sum /
            (FIRMCP.rolloutWeights rpow cW regW cO regO reached costtogo children).sum ∧
        ∀ i, i < j →
          ((FIRMCP.rolloutWeights rpow cW regW cO regO reached costtogo
              children).take (i + 1)).sum /
            (FIRMCP.rolloutWeights rpow cW regW cO regO reached costtogo children).sum
            ≤ u) := by
  have hsections :
      FIRMCP.rolloutSections rpow cW regW cO regO reached costtogo children =
        ((FIRMCP.rolloutWeights rpow cW regW cO regO reached costtogo children).sum,
         (List.range children.length).map (fun j =>
           ((FIRMCP.rolloutWeights rpow cW regW cO regO reached costtogo children).take
             (j + 1)).sum)) := by
    unfold FIRMCP.rolloutSections FIRMCP.rolloutWeights
    rw [← List.foldl_map
      (fun c => FIRMCP.rolloutWeight rpow cW regW cO regO
        (FIRMCP.rolloutWithinReach reached children) (costtogo c))
      (fun (acc : ℚ × List ℚ) w => (acc.1 + w, acc.2 ++ [acc.1 + w]))]
    rw [sectionsFold_spec]
    simp
  refine ⟨?_, ?_, ?_, ?_⟩
  · cases children with
    | nil => rfl
    | cons c cs =>
      simp [FIRMCP.rolloutWeights, FIRMCP.rolloutWithinReach, FIRMCP.rolloutWeight]
  · rw [hsections]
  · rw [hsections]
  · intro x hx
    unfold FIRMCP.rolloutSelectAction at hx
    rw [hsections] at hx
    rcases Option.map_eq_some'.mp hx with ⟨j, hj, hjx⟩
    rcases selectSection_spec u _ j hj with ⟨h1, h2, h3⟩
    rw [List.length_map, List.length_map, List.length_range] at h1
    refine ⟨j, h1, hjx.symm, ?_, ?_⟩
    · rw [getD_range_map_map children.length j _ _ h1] at h2
      exact h2
    · intro i hi
      have := h3 i hi
      rw [getD_range_map_map children.length i _ _ (by omega)] at this
      exact this

/-- Witness for `rollout_weight_selection`: a single child `5` of weight
`1`, draw `u = 0`. -/
theorem rollout_weight_selection_witness :
    ∃ j, j < ([5] : List ℕ).length ∧ (5 : ℕ) = ([5] : List ℕ).getD j 0 ∧
      (0 : ℚ) < ((FIRMCP.rolloutWeights (fun q _ => q) 0 0 0 0 (fun _ => true)
            (fun _ => 1) [5]).take (j + 1)).sum /
          (FIRMCP.rolloutWeights (fun q _ => q) 0 0 0 0 (fun _ => true)
            (fun _ => 1) [5]).sum ∧
      ∀ i, i < j →
        ((FIRMCP.rolloutWeights (fun q _ => q) 0 0 0 0 (fun _ => true)
            (fun _ => 1) [5]).take (i + 1)).sum /
          (FIRMCP.rolloutWeights (fun q _ => q) 0 0 0 0 (fun _ => true)
            (fun _ => 1) [5]).sum ≤ 0 :=
  (rollout_weight_selection (fun q _ => q) 0 0 0 0 (fun _ => true) (fun _ => 1) [5]
      0).2.2.2 5
    (by norm_num [FIRMCP.rolloutSelectAction, FIRMCP.rolloutSections,
      FIRMCP.rolloutWithinReach, FIRMCP.rolloutWeight, FIRMCP.selectSection])

mutual

/-- Pruning a subtree either leaves a vertex's flags unchanged or sets all
of them (nothing is ever un-pruned). -/
theorem pruneTree_pointwise (start : ℕ) (t : FIRMCP.PTree)
    (g : ℕ → FIRMCP.VertexState) (v : ℕ) :
    FIRMCP.prunePOMCPTreeFrom start t g v = g v ∨
      FIRMCP.prunePOMCPTreeFrom start t g v = ⟨true, true, true⟩ := by
  cases t with
  | node w children =>
    have hc := pruneChildren_pointwise start children g v
    simp only [FIRMCP.prunePOMCPTreeFrom, FIRMCP.prunePOMCPNode]
    by_cases hw : w = start
    · rw [if_pos hw]; exact hc
    · rw [if_neg hw]
      by_cases hv : v = w
      · subst hv
        right
        rw [Function.update_same]
      · rw [Function.update_noteq hv]
        exact hc

/-- List version of `pruneTree_pointwise`. -/
theorem pruneChildren_pointwise (start : ℕ) (ts : List FIRMCP.PTree)
    (g : ℕ → FIRMCP.VertexState) (v : ℕ) :
    FIRMCP.pruneChildren start ts g v = g v ∨
      FIRMCP.pruneChildren start ts g v = ⟨true, true, true⟩ := by
  cases ts with
  | nil => left; rfl
  | cons t ts =>
    have h1 := pruneTree_pointwise start t g v
    have h2 := pruneChildren_pointwise start ts (FIRMCP.prunePOMCPTreeFrom start t g) v
    simp only [FIRMCP.pruneChildren]
    rcases h2 with h2 | h2
    · rw [h2]; exact h1
    · right; exact h2

end

mutual

/-- Pruning a subtree leaves the start vertex and every vertex outside the
subtree untouched. -/
theorem pruneTree_frame (start : ℕ) (t : FIRMCP.PTree)
    (g : ℕ → FIRMCP.VertexState) (v : ℕ)
    (hv : v = start ∨ v ∉ FIRMCP.treeVerts t) :
    FIRMCP.prunePOMCPTreeFrom start t g v = g v := by
  cases t with
  | node w children =>
    have hm : v = start ∨ v ∉ FIRMCP.forestVerts children := by
      rcases hv with hv | hv
      · exact Or.inl hv
      · right
        intro hmem
        exact hv (by simp [FIRMCP.treeVerts]; exact Or.inr hmem)
    have hc := pruneChildren_frame start children g v hm
    simp only [FIRMCP.prunePOMCPTreeFrom, FIRMCP.prunePOMCPNode]
    by_cases hw : w = start
    · rw [if_pos hw]; exact hc
    · rw [if_neg hw]
      have hvw : v ≠ w := by
        rcases hv with hv | hv
        · subst hv; exact fun h => hw h.symm
        · intro h
          exact hv (by simp [FIRMCP.treeVerts, h])
      rw [Function.update_noteq hvw]
      exact hc

/-- List version of `pruneTree_frame`. -/
theorem pruneChildren_frame (start : ℕ) (ts : List FIRMCP.PTree)
    (g : ℕ → FIRMCP.VertexState) (v : ℕ)
    (hv : v = start ∨ v ∉ FIRMCP.forestVerts ts) :
    FIRMCP.pruneChildren start ts g v = g v := by
  cases ts with
  | nil => rfl
  | cons t ts =>
    have hvt : v = start ∨ v ∉ FIRMCP.treeVerts t := by
      rcases hv with hv | hv
      · exact Or.inl hv
      · right
        intro hmem
        exact hv (by simp [FIRMCP.forestVerts]; exact Or.inl hmem)
    have hvts : v = start ∨ v ∉ FIRMCP.forestVerts ts := by
      rcases hv with hv | hv
      · exact Or.inl hv
      · right
        intro hmem
        exact hv (by simp [FIRMCP.forestVerts]; exact Or.inr hmem)
    simp only [FIRMCP.pruneChildren]
    rw [pruneChildren_frame start ts _ v hvts, pruneTree_frame start t g v hvt]

end

mutual

/-- Every non-start vertex of the pruned subtree ends with all destruction
flags set. -/
theorem pruneTree_prunes (start : ℕ) (t : FIRMCP.PTree)
    (g : ℕ → FIRMCP.VertexState) (v : ℕ)
    (hv : v ∈ FIRMCP.treeVerts t) (hvs : v ≠ start) :
    FIRMCP.prunePOMCPTreeFrom start t g v = ⟨true, true, true⟩ := by
  cases t with
  | node w children =>
    simp only [FIRMCP.prunePOMCPTreeFrom, FIRMCP.prunePOMCPNode]
    have hv' : v = w ∨ v ∈ FIRMCP.forestVerts children := by
      simpa [FIRMCP.treeVerts] using hv
    by_cases hvw : v = w
    · subst hvw
      rw [if_neg hvs]
      rw [Function.update_same]
    · have hvf : v ∈ FIRMCP.forestVerts children := by
        rcases hv' with h | h
        · exact absurd h hvw
        · exact h
      have hc := pruneChildren_prunes start children g v hvf hvs
      by_cases hw : w = start
      · rw [if_pos hw]; exact hc
      · rw [if_neg hw, Function.update_noteq hvw]
        exact hc

/-- List version of `pruneTree_prunes`. -/
theorem pruneChildren_prunes (start : ℕ) (ts : List FIRMCP.PTree)
    (g : ℕ → FIRMCP.VertexState) (v : ℕ)
    (hv : v ∈ FIRMCP.forestVerts ts) (hvs : v ≠ start) :
    FIRMCP.pruneChildren start ts g v = ⟨true, true, true⟩ := by
  cases ts with
  | nil => simp [FIRMCP.forestVerts] at hv
  | cons t ts =>
    have hv' : v ∈ FIRMCP.treeVerts t ∨ v ∈ FIRMCP.forestVerts ts := by
      simpa [FIRMCP.forestVerts] using hv
    simp only [FIRMCP.pruneChildren]
    rcases hv' with h | h
    · have h1 := pruneTree_prunes start t g v h hvs
      rcases pruneChildren_pointwise start ts (FIRMCP.prunePOMCPTreeFrom start t g) v with
        h2 | h2
      · rw [h2, h1]
      · exact h2
    · exact pruneChildren_prunes start ts (FIRMCP.prunePOMCPTreeFrom start t g) v h hvs

end

/-- Claim C9: the roadmap start vertex is never pruned — neither
`prunePOMCPTreeFrom` nor `prunePOMCPNode` frees its belief state, releases
its edge controllers or clears its edges — while every other vertex of the
pruned subtree (and every other vertex handed to `prunePOMCPNode`) ends
with its outgoing edge controllers freed, its belief state freed and its
edges cleared; vertices outside the subtree are untouched. -/
theorem prune_start_never_pruned (start : ℕ) (t : FIRMCP.PTree)
    (g : ℕ → FIRMCP.VertexState) (v : ℕ) :
    (FIRMCP.prunePOMCPTreeFrom start t g start = g start) ∧
    (FIRMCP.prunePOMCPNode start g start = g) ∧
    (v ∈ FIRMCP.treeVerts t → v ≠ start →
      FIRMCP.prunePOMCPTreeFrom start t g v = ⟨true, true, true⟩) ∧
    (v ≠ start → FIRMCP.prunePOMCPNode start g v v = ⟨true, true, true⟩) ∧
    (v ∉ FIRMCP.treeVerts t → FIRMCP.prunePOMCPTreeFrom start t g v = g v) := by
  refine ⟨?_, ?_, ?_, ?_, ?_⟩
  · exact pruneTree_frame start t g start (Or.inl rfl)
  · simp [FIRMCP.prunePOMCPNode]
  · intro h1 h2
    exact pruneTree_prunes start t g v h1 h2
  · intro h
    simp [FIRMCP.prunePOMCPNode, if_neg h]
  · intro h
    exact pruneTree_frame start t g v (Or.inr h)

/-- Witness for `prune_start_never_pruned`: the tree rooted at vertex `1`
with children `2` and the start vertex `0`, evaluated at vertex `2`. -/
theorem prune_start_never_pruned_witness :
    (FIRMCP.prunePOMCPTreeFrom 0
        (FIRMCP.PTree.node 1 [FIRMCP.PTree.node 2 [], FIRMCP.PTree.node 0 []])
        (fun _ => ⟨false, false, false⟩) 0 = (fun _ => ⟨false, false, false⟩) 0) ∧
    (FIRMCP.prunePOMCPNode 0 (fun _ => ⟨false, false, false⟩) 0 =
      (fun _ => ⟨false, false, false⟩)) ∧
    ((2 : ℕ) ∈ FIRMCP.treeVerts
        (FIRMCP.PTree.node 1 [FIRMCP.PTree.node 2 [], FIRMCP.PTree.node 0 []]) →
      (2 : ℕ) ≠ 0 →
      FIRMCP.prunePOMCPTreeFrom 0
        (FIRMCP.PTree.node 1 [FIRMCP.PTree.node 2 [], FIRMCP.PTree.node 0 []])
        (fun _ => ⟨false, false, false⟩) 2 = ⟨true, true, true⟩) ∧
    ((2 : ℕ) ≠ 0 →
      FIRMCP.prunePOMCPNode 0 (fun _ => ⟨false, false, false⟩) 2 2 = ⟨true, true, true⟩) ∧
    ((2 : ℕ) ∉ FIRMCP.treeVerts
        (FIRMCP.PTree.node 1 [FIRMCP.PTree.node 2 [], FIRMCP.PTree.node 0 []]) →
      FIRMCP.prunePOMCPTreeFrom 0
        (FIRMCP.PTree.node 1 [FIRMCP.PTree.node 2 [], FIRMCP.PTree.node 0 []])
        (fun _ => ⟨false, false, false⟩) 2 = (fun _ => ⟨false, false, false⟩) 2) ∧
    FIRMCP.prunePOMCPTreeFrom 0
        (FIRMCP.PTree.node 1 [FIRMCP.PTree.node 2 [], FIRMCP.PTree.node 0 []])
        (fun _ => ⟨false, false, false⟩) 2 = ⟨true, true, true⟩ := by
  have h := prune_start_never_pruned 0
    (FIRMCP.PTree.node 1 [FIRMCP.PTree.node 2 [], FIRMCP.PTree.node 0 []])
    (fun _ => ⟨false, false, false⟩) 2
  refine ⟨h.1, h.2.1, h.2.2.1, h.2.2.2.1, h.2.2.2.2, ?_⟩
  exact h.2.2.1 (by simp [FIRMCP.treeVerts, FIRMCP.forestVerts]) (by decide)
